import Mathlib

set_option autoImplicit false

/-!
Verification of the bevy-extrude-mesh geometry library.

This file gives a shallow embedding of the two core source files,
src/bezier.rs (cubic Bezier curve evaluation, path generation, arc-length
reparameterization) and src/extrude.rs (cross-section construction and mesh
extrusion), and proves properties of the embedded definitions.

Modelling conventions:
* f32 scalars are modelled as real numbers (exact arithmetic); f64 casts in the
  source are the identity here.
* Rust panics (slice index out of bounds, usize subtraction underflow) are
  modelled by Option-valued functions, with none standing for a panic.
* Rust while-loops whose counters are accumulated floats are modelled by
  fuel-bounded recursion; the fuel passed at each call site is shown to be
  sufficient in the theorems below.
* Types from the external glam / bevy crates (Vec3, Quat, Mesh attributes) are
  embedded following the published glam implementations where the library
  calls into them.
-/

/-- Three-component vector, modelling glam Vec3 (with f32 components modelled
as real numbers). -/
@[ext]
structure Vec3 where
  x : ℝ
  y : ℝ
  z : ℝ

namespace Vec3

instance : Add Vec3 := ⟨fun a b => ⟨a.x + b.x, a.y + b.y, a.z + b.z⟩⟩

instance : Sub Vec3 := ⟨fun a b => ⟨a.x - b.x, a.y - b.y, a.z - b.z⟩⟩

instance : Neg Vec3 := ⟨fun a => ⟨-a.x, -a.y, -a.z⟩⟩

/-- Scalar multiplication Vec3 * f32, as in glam. -/
instance : HMul Vec3 ℝ Vec3 := ⟨fun v s => ⟨v.x * s, v.y * s, v.z * s⟩⟩

/-- glam Vec3::dot. -/
def dot (a b : Vec3) : ℝ := a.x * b.x + a.y * b.y + a.z * b.z

/-- glam Vec3::cross. -/
def cross (a b : Vec3) : Vec3 :=
  ⟨a.y * b.z - a.z * b.y, a.z * b.x - a.x * b.z, a.x * b.y - a.y * b.x⟩

/-- glam Vec3::length, the Euclidean norm. -/
noncomputable def length (v : Vec3) : ℝ := Real.sqrt (v.dot v)

/-- glam Vec3::normalize: self * (1 / length).  (On the zero vector glam
produces non-finite components; here real division by zero yields the zero
vector.  No claim below depends on this degenerate case.) -/
noncomputable def normalize (v : Vec3) : Vec3 := v * (v.length)⁻¹

/-- glam Vec3::Y. -/
def unitY : Vec3 := ⟨0, 1, 0⟩

/-- The zero vector (glam Vec3::ZERO, also the [0., 0., 0.] literals of the
source). -/
def zero : Vec3 := ⟨0, 0, 0⟩

end Vec3

/-- Quaternion, modelling glam Quat (f32 components modelled as reals). -/
structure Quat where
  x : ℝ
  y : ℝ
  z : ℝ
  w : ℝ

namespace Quat

/-- The vector part of a quaternion (glam Quat::xyz). -/
def xyz (q : Quat) : Vec3 := ⟨q.x, q.y, q.z⟩

/-- glam impl Mul&lt;Vec3&gt; for Quat: rotation of a vector by a (unit)
quaternion, written exactly as glam computes it. -/
def mulVec3 (q : Quat) (v : Vec3) : Vec3 :=
  let b := q.xyz
  let b2 := b.dot b
  v * (q.w * q.w - b2) + b * (v.dot b * 2) + (b.cross v) * (q.w * 2)

/-- glam Quat::conjugate. -/
def conjugate (q : Quat) : Quat := ⟨-q.x, -q.y, -q.z, q.w⟩

/-- glam Quat::inverse: for unit quaternions this is the conjugate, which is
exactly what glam returns. -/
def inverse (q : Quat) : Quat := q.conjugate

/-- glam Quat::from_rotation_axes (the worker behind Quat::from_mat3): builds
a quaternion from the three matrix columns, branching on the diagonal for
numerical stability. -/
noncomputable def fromRotationAxes (xa ya za : Vec3) : Quat :=
  let m00 := xa.x
  let m01 := xa.y
  let m02 := xa.z
  let m10 := ya.x
  let m11 := ya.y
  let m12 := ya.z
  let m20 := za.x
  let m21 := za.y
  let m22 := za.z
  if m22 ≤ 0 then
    let dif10 := m11 - m00
    let omm22 := 1 - m22
    if dif10 ≤ 0 then
      let fourXsq := omm22 - dif10
      let inv4x := (1 / 2) / Real.sqrt fourXsq
      ⟨fourXsq * inv4x, (m01 + m10) * inv4x, (m02 + m20) * inv4x, (m12 - m21) * inv4x⟩
    else
      let fourYsq := omm22 + dif10
      let inv4y := (1 / 2) / Real.sqrt fourYsq
      ⟨(m01 + m10) * inv4y, fourYsq * inv4y, (m12 + m21) * inv4y, (m20 - m02) * inv4y⟩
  else
    let sum10 := m11 + m00
    let opm22 := 1 + m22
    if sum10 ≤ 0 then
      let fourZsq := opm22 - sum10
      let inv4z := (1 / 2) / Real.sqrt fourZsq
      ⟨(m02 + m20) * inv4z, (m12 + m21) * inv4z, fourZsq * inv4z, (m01 - m10) * inv4z⟩
    else
      let fourWsq := opm22 + sum10
      let inv4w := (1 / 2) / Real.sqrt fourWsq
      ⟨(m12 - m21) * inv4w, (m20 - m02) * inv4w, (m01 - m10) * inv4w, fourWsq * inv4w⟩

/-- glam Quat::from_mat3 on Mat3::from_cols(xa, ya, za). -/
noncomputable def fromMat3 (xa ya za : Vec3) : Quat := fromRotationAxes xa ya za

end Quat

/-- OrientedPoint from src/bezier.rs: position + rotation + V texture
coordinate. -/
structure OrientedPoint where
  position : Vec3
  rotation : Quat
  v_coordinate : ℝ

namespace OrientedPoint

/-- OrientedPoint::new. -/
def new (position : Vec3) (rotation : Quat) (v_coordinate : ℝ) : OrientedPoint :=
  ⟨position, rotation, v_coordinate⟩

/-- OrientedPoint::local_to_world: self.position + self.rotation * point. -/
def local_to_world (p : OrientedPoint) (point : Vec3) : Vec3 :=
  p.position + p.rotation.mulVec3 point

/-- OrientedPoint::world_to_local: self.rotation.inverse() * (point - self.position). -/
def world_to_local (p : OrientedPoint) (point : Vec3) : Vec3 :=
  p.rotation.inverse.mulVec3 (point - p.position)

/-- OrientedPoint::local_to_world_direction: self.rotation * dir. -/
def local_to_world_direction (p : OrientedPoint) (dir : Vec3) : Vec3 :=
  p.rotation.mulVec3 dir

end OrientedPoint

/-- DEFAULT_LEN from src/bezier.rs. -/
def DEFAULT_LEN : ℕ := 100

/-- BezierCurve from src/bezier.rs.  The source stores `points: Vec<Vec3>` and
always indexes entries 0..3 (the cubic contract); we model the four control
points as a function from Fin 4. -/
structure BezierCurve where
  points : Fin 4 → Vec3
  sampled_lengths : List ℝ
  arc_lengths : List ℝ
  len : ℕ
  length : ℝ

namespace BezierCurve

/-- BezierCurve::calculate_point: the cubic Bernstein combination, with the
powers of t and 1-t passed in by the caller exactly as in the source. -/
def calculate_point (c : BezierCurve) (t t2 t3 it it2 it3 : ℝ) : Vec3 :=
  c.points 0 * it3 +
    c.points 1 * (3 * it2 * t) +
    c.points 2 * (3 * it * t2) +
    c.points 3 * t3

/-- BezierCurve::calculate_normal: binormal = up x tangent, normal =
tangent x binormal. -/
def calculate_normal (_c : BezierCurve) (tangent up : Vec3) : Vec3 :=
  let binormal := Vec3.cross up tangent
  Vec3.cross tangent binormal

/-- BezierCurve::calculate_tangent: the (non-derivative) tangent expression of
the source, normalized.  t2 and it2 are passed by the caller (t*t and
(1-t)*(1-t)). -/
noncomputable def calculate_tangent (c : BezierCurve) (t t2 it2 : ℝ) : Vec3 :=
  (c.points 0 * (-1 : ℝ) * it2 +
    c.points 1 * (t * (3 * t - 4) + 1) +
    c.points 2 * (-3 * t2 + t * 2) +
    c.points 3 * t2).normalize

/-- BezierCurve::get_point_pos_only. -/
def get_point_pos_only (c : BezierCurve) (t : ℝ) : Vec3 :=
  let t2 := t * t
  let t3 := t2 * t
  let it := 1 - t
  let it2 := it * it
  let it3 := it * it * it
  c.calculate_point t t2 t3 it it2 it3

/-- BezierCurve::get_point: returns (point, tangent, normal, orientation)
exactly as the source tuple. -/
noncomputable def get_point (c : BezierCurve) (t : ℝ) : Vec3 × Vec3 × Vec3 × Quat :=
  let t2 := t * t
  let t3 := t2 * t
  let it := 1 - t
  let it2 := it * it
  let it3 := it * it * it
  let tangent := c.calculate_tangent t t2 it2
  let normal := c.calculate_normal tangent Vec3.unitY
  let f := tangent.normalize
  let r := (Vec3.cross f normal).normalize
  let u := Vec3.cross r f
  let orientation := Quat.fromMat3 r u (-f)
  let point := c.calculate_point t t2 t3 it it2 it3
  (point, tangent, normal, orientation)

/-- Linear interpolation from the lerp crate: a + (b - a) * t. -/
def lerpVal (a b t : ℝ) : ℝ := a + (b - a) * t

/-- BezierCurve::sample: linear interpolation into sampled_lengths.  Slice
accesses are modelled with getD; every access the source performs is in
bounds for curves built by BezierCurve::new (sampled_lengths has 20 entries
there).  For an empty sampled_lengths the source would already panic computing
(len - 1); that state is unreachable through the public constructor and no
claim touches it. -/
noncomputable def sample (c : BezierCurve) (t : ℝ) : ℝ :=
  let n := c.sampled_lengths.length
  if n = 1 then c.sampled_lengths.getD 0 0
  else
    let f := t * ((n : ℝ) - 1)
    let idLower : ℤ := ⌊f⌋
    let idUpper : ℤ := ⌈f⌉
    if (n : ℤ) ≤ idUpper then c.sampled_lengths.getD (n - 1) 0
    else if idLower < 0 then c.sampled_lengths.getD 0 0
    else lerpVal (c.sampled_lengths.getD idLower.toNat 0)
      (c.sampled_lengths.getD idUpper.toNat 0) (f - (idLower : ℝ))

/-- BezierCurve::get_oriented_point. -/
noncomputable def get_oriented_point (c : BezierCurve) (t : ℝ) : OrientedPoint :=
  let r := c.get_point t
  OrientedPoint.new r.1 r.2.2.2 (c.sample t)

/-- The while loop of BezierCurve::generate_samples, fuel-bounded: while
f < 1 take a curve sample, accumulate the chord length, push the running
total, advance f by step (1/10).  Returns (pushed entries, final total,
final previous point). -/
noncomputable def samplesLoop (c : BezierCurve) : ℕ → ℝ → ℝ → Vec3 → List ℝ × ℝ × Vec3
  | 0, _, total, prev => ([], total, prev)
  | fuel + 1, f, total, prev =>
    if f < 1 then
      let pt := (c.get_point f).1
      let total2 := total + (pt - prev).length
      let rest := samplesLoop c fuel (f + 1 / 10) total2 pt
      (total2 :: rest.1, rest.2.1, rest.2.2)
    else ([], total, prev)

/-- BezierCurve::generate_samples: the samples vector starts as ten zeros
(vec![0f32; 10]), then the loop pushes the running totals for f = 0.1 .. 0.9,
and one final entry for t = 1 is pushed after the loop.  The loop body runs
exactly 9 times, so fuel 10 is sufficient. -/
noncomputable def generate_samples (c : BezierCurve) : List ℝ :=
  let r := samplesLoop c 10 (1 / 10) 0 (c.points 0)
  let pt := (c.get_point 1).1
  (List.replicate 10 (0 : ℝ) ++ r.1) ++ [r.2.1 + (pt - r.2.2).length]

/-- BezierCurve::new: arc_lengths is zero-initialized with len+1 entries,
length is 0, and sampled_lengths is filled in by generate_samples. -/
noncomputable def new (points : Fin 4 → Vec3) (len : Option ℕ) : BezierCurve :=
  let curve : BezierCurve :=
    { points := points
      sampled_lengths := []
      arc_lengths := List.replicate (len.getD DEFAULT_LEN + 1) 0
      len := len.getD DEFAULT_LEN
      length := 0 }
  { curve with sampled_lengths := generate_samples curve }

/-- The while loop of BezierCurve::generate_path, fuel-bounded: while i < 1
push get_oriented_point(i) and advance i by step. -/
noncomputable def pathLoop (c : BezierCurve) (step : ℝ) : ℕ → ℝ → List OrientedPoint
  | 0, _ => []
  | fuel + 1, i =>
    if i < 1 then c.get_oriented_point i :: pathLoop c step fuel (i + step)
    else []

/-- BezierCurve::generate_path: loop from i = 0 with step 1/subdivisions,
then push the point at t = 1 explicitly.  For subdivisions ≥ 1 the loop body
runs exactly subdivisions times, so fuel subdivisions + 1 is sufficient. -/
noncomputable def generate_path (c : BezierCurve) (subdivisions : ℕ) : List OrientedPoint :=
  pathLoop c (1 / (subdivisions : ℝ)) (subdivisions + 1) 0 ++ [c.get_oriented_point 1]

/-- The mutation performed on each point by
generate_path_with_custom_height_function: point.position.y is overwritten
with the height function applied to the point's own x and z (the f64 casts of
the source are the identity in the real model). -/
noncomputable def heightPoint (hf : ℝ → ℝ → ℝ) (p : OrientedPoint) : OrientedPoint :=
  { p with position := ⟨p.position.x, hf p.position.x p.position.z, p.position.z⟩ }

/-- The while loop of BezierCurve::generate_path_with_custom_height_function,
fuel-bounded, identical control flow to pathLoop but each pushed point has its
y overridden. -/
noncomputable def pathLoopWithHeight (c : BezierCurve) (step : ℝ) (hf : ℝ → ℝ → ℝ) :
    ℕ → ℝ → List OrientedPoint
  | 0, _ => []
  | fuel + 1, i =>
    if i < 1 then heightPoint hf (c.get_oriented_point i) :: pathLoopWithHeight c step hf fuel (i + step)
    else []

/-- BezierCurve::generate_path_with_custom_height_function. -/
noncomputable def generate_path_with_custom_height_function (c : BezierCurve)
    (subdivisions : ℕ) (hf : ℝ → ℝ → ℝ) : List OrientedPoint :=
  pathLoopWithHeight c (1 / (subdivisions : ℝ)) hf (subdivisions + 1) 0 ++
    [heightPoint hf (c.get_oriented_point 1)]

/-- BezierCurve::calculate_arc_lengths: for i in 1..=len accumulate the chord
between consecutive uniformly spaced position samples into arc_lengths[i], and
cache the running total as length. -/
noncomputable def calculate_arc_lengths (c : BezierCurve) : BezierCurve :=
  let init : List ℝ × ℝ × Vec3 := (c.arc_lengths, 0, c.get_point_pos_only 0)
  let final := (List.range' 1 c.len).foldl
    (fun (st : List ℝ × ℝ × Vec3) (i : ℕ) =>
      let point := c.get_point_pos_only ((i : ℝ) / (c.len : ℝ))
      let dx := st.2.2.x - point.x
      let dy := st.2.2.y - point.y
      let dz := st.2.2.z - point.z
      let clen := st.2.1 + Real.sqrt (dx * dx + dy * dy + dz * dz)
      (st.1.set i clen, clen, point)) init
  { c with arc_lengths := final.1, length := final.2.1 }

/-- BezierCurve::calculate_arc_lengths_with_custom_height_function: as
calculate_arc_lengths but every sampled position (including the initial one)
has its y overridden by the height function before the chord is taken. -/
noncomputable def calculate_arc_lengths_with_custom_height_function (c : BezierCurve)
    (hf : ℝ → ℝ → ℝ) : BezierCurve :=
  let p0 := c.get_point_pos_only 0
  let start : Vec3 := ⟨p0.x, hf p0.x p0.z, p0.z⟩
  let init : List ℝ × ℝ × Vec3 := (c.arc_lengths, 0, start)
  let final := (List.range' 1 c.len).foldl
    (fun (st : List ℝ × ℝ × Vec3) (i : ℕ) =>
      let q := c.get_point_pos_only ((i : ℝ) / (c.len : ℝ))
      let point : Vec3 := ⟨q.x, hf q.x q.z, q.z⟩
      let dx := st.2.2.x - point.x
      let dy := st.2.2.y - point.y
      let dz := st.2.2.z - point.z
      let clen := st.2.1 + Real.sqrt (dx * dx + dy * dy + dz * dz)
      (st.1.set i clen, clen, point)) init
  { c with arc_lengths := final.1, length := final.2.1 }

/-- The while loop of BezierCurve::map: binary search for the first table
entry ≥ target (the `| 0` in the source is a no-op bit-or).  The table access
is modelled with get? so that an out-of-bounds probe is a panic (none); the
returned value is the last probe index, as in the source's `index` variable. -/
noncomputable def binSearch (arc : List ℝ) (target : ℝ) (low high index : ℕ) : Option ℕ :=
  if _h : low < high then
    match arc.get? (low + (high - low) / 2) with
    | none => none
    | some v =>
      if v < target then binSearch arc target (low + (high - low) / 2 + 1) high (low + (high - low) / 2)
      else binSearch arc target low (low + (high - low) / 2) (low + (high - low) / 2)
  else some index
termination_by high - low
decreasing_by
  · omega
  · omega

/-- BezierCurve::map: arc-length parameter u to curve parameter t.  Panics of
the source (out-of-bounds arc_lengths accesses and the usize underflow of
`index -= 1` at index 0) are modelled as none.  The f32 divisions are real
divisions here. -/
noncomputable def map (c : BezierCurve) (u : ℝ) : Option ℝ := do
  let total ← c.arc_lengths.get? c.len
  let target := u * total
  let index0 ← binSearch c.arc_lengths target 0 c.len 0
  let v ← c.arc_lengths.get? index0
  let index ←
    if v > target then
      if index0 = 0 then none else some (index0 - 1)
    else some index0
  let lengthBefore ← c.arc_lengths.get? index
  if lengthBefore = target then
    some ((index : ℝ) / (c.len : ℝ))
  else do
    let next ← c.arc_lengths.get? (index + 1)
    some (((index : ℝ) + (target - lengthBefore) / (next - lengthBefore)) / (c.len : ℝ))

end BezierCurve

/-- ExtrudeShape from src/extrude.rs.  vertices/normals are [f32; 3] arrays
(Vec3 here), face_indices and edges are flattened u32 lists (ℕ here),
u_coords the per-vertex U texture coordinates. -/
structure ExtrudeShape where
  vertices : List Vec3
  normals : List Vec3
  face_indices : List ℕ
  edges : List ℕ
  u_coords : List ℝ

/-- The edge-building pass of ExtrudeShape::from_mesh: for i stepping by 3
emit the three oriented edges (a,b), (b,c), (c,a) of each triangle.  A
trailing group of one or two indices makes the source read index_array[i+1] or
index_array[i+2] out of bounds, hence none. -/
def triangleEdges : List ℕ → Option (List (ℕ × ℕ))
  | [] => some []
  | a :: b :: c :: rest => do
    let es ← triangleEdges rest
    some ((a, b) :: (b, c) :: (c, a) :: es)
  | _ => none

/-- The retain closure of ExtrudeShape::from_mesh, written as a loop over the
remaining edges: an edge is dropped (and pushed onto removed) when its
reverse occurs in the removed list or anywhere in the original edge list
(edges_clone); otherwise it is kept. -/
def retainLoop (orig : List (ℕ × ℕ)) : List (ℕ × ℕ) → List (ℕ × ℕ) → List (ℕ × ℕ)
  | _, [] => []
  | removed, e :: rest =>
    if (e.2, e.1) ∈ removed ∨ (e.2, e.1) ∈ orig then
      retainLoop orig (removed ++ [e]) rest
    else
      e :: retainLoop orig removed rest

/-- The interior-edge elimination of ExtrudeShape::from_mesh: retain over the
edge list with an initially empty removed list, the original list doubling as
edges_clone. -/
def removeInteriorEdges (edges : List (ℕ × ℕ))  : List (ℕ × ℕ) :=
  retainLoop edges [] edges

/-- ExtrudeShape::from_mesh assembled from its passes.  Inputs are the mesh
position attribute, the (already u32-converted) index array, and the UV
attribute as seen through as_float3 (None when absent or not a float3 array).
Vertex normals: edge_normals[i] is the normalized 90-degree XY rotation of
vertices[(i+1) % V] - vertices[i] (z passed through), vertex_normals[i] the
normalized sum of edge_normals[i] and edge_normals[(V+i-1) % V]; all these
accesses are in bounds, rendered with getD. -/
noncomputable def ExtrudeShape.from_mesh (vertices : List Vec3) (index_array : List ℕ)
    (uvs : Option (List Vec3)) : Option ExtrudeShape := do
  let tris ← triangleEdges index_array
  let outline := removeInteriorEdges tris
  let edges_array := outline.flatMap (fun e => [e.1, e.2])
  let u_coords : List ℝ :=
    match uvs with
    | some uvArr => uvArr.map (fun uv => uv.x)
    | none => []
  let vertex_count := vertices.length
  let edge_normals := (List.range vertex_count).map (fun i =>
    let j := (i + 1) % vertex_count
    let edge_vec := vertices.getD j Vec3.zero - vertices.getD i Vec3.zero
    Vec3.normalize ⟨-edge_vec.y, edge_vec.x, edge_vec.z⟩)
  let vertex_normals := (List.range vertex_count).map (fun i =>
    let j := (vertex_count + i - 1) % vertex_count
    Vec3.normalize (edge_normals.getD i Vec3.zero + edge_normals.getD j Vec3.zero))
  some { vertices := vertices
         normals := vertex_normals
         face_indices := index_array
         edges := edges_array
         u_coords := u_coords }

/-- The output mesh of extrude: the attributes inserted into the bevy Mesh
(positions, normals, optionally UVs) and the u32 index buffer. -/
structure ExtrudedMesh where
  positions : List Vec3
  normals : List Vec3
  uvs : Option (List (ℝ × ℝ))
  indices : List ℕ

/-- Checked in-place update of a buffer: Rust `buf[i] = a`, panicking (none)
when i is out of bounds. -/
def setChecked {α : Type} (l : List α) (i : ℕ) (a : α) : Option (List α) :=
  if i < l.length then some (l.set i a) else none

/-- The inner vertex loop of extrude: for j in 0..count write the transformed
vertex, normal and (when u_coords is nonempty) UV at id = offset + j.  The
state is (mesh_vertices, mesh_normals, mesh_uvs). -/
def vertexLoop (shape : ExtrudeShape) (point : OrientedPoint) (offset : ℕ) :
    ℕ → ℕ → List Vec3 × List Vec3 × List (ℝ × ℝ) → Option (List Vec3 × List Vec3 × List (ℝ × ℝ))
  | 0, _, st => some st
  | n + 1, j, st => do
    let id := offset + j
    let v ← shape.vertices.get? j
    let nrm ← shape.normals.get? j
    let verts ← setChecked st.1 id (point.local_to_world v)
    let norms ← setChecked st.2.1 id (point.local_to_world_direction nrm)
    let uvbuf ←
      if shape.u_coords.isEmpty then some st.2.2
      else do
        let u ← shape.u_coords.get? j
        setChecked st.2.2 id (u, point.v_coordinate)
    vertexLoop shape point offset n (j + 1) (verts, norms, uvbuf)

/-- The outer vertex loop of extrude: for (i, point) in path.iter().enumerate()
run the inner loop with offset i * shape_vertex_count. -/
def ringsLoop (shape : ExtrudeShape) :
    List OrientedPoint → ℕ → List Vec3 × List Vec3 × List (ℝ × ℝ) →
      Option (List Vec3 × List Vec3 × List (ℝ × ℝ))
  | [], _, st => some st
  | p :: rest, i, st => do
    let st2 ← vertexLoop shape p (i * shape.vertices.length) shape.vertices.length 0 st
    ringsLoop shape rest (i + 1) st2

/-- The inner index loop of extrude: for j in (0..edges.len()).step_by(2) read
the edge pair edges[j], edges[j+1] and write the six quad indices a, b, c, c,
d, a at tri_index..tri_index+5.  Consuming the edge list two at a time is the
same access pattern; a leftover single element makes the source read
edges[j+1] out of bounds, hence none.  State is (mesh_indices, tri_index). -/
def edgePairsLoop (vcount offset : ℕ) : List ℕ → List ℕ × ℕ → Option (List ℕ × ℕ)
  | [], st => some st
  | [_], _ => none
  | e1 :: e2 :: rest, st => do
    let a := offset + e1 + vcount
    let b := offset + e1
    let c := offset + e2
    let d := offset + e2 + vcount
    let i1 ← setChecked st.1 st.2 a
    let i2 ← setChecked i1 (st.2 + 1) b
    let i3 ← setChecked i2 (st.2 + 2) c
    let i4 ← setChecked i3 (st.2 + 3) c
    let i5 ← setChecked i4 (st.2 + 4) d
    let i6 ← setChecked i5 (st.2 + 5) a
    edgePairsLoop vcount offset rest (i6, st.2 + 6)

/-- The outer index loop of extrude: for i in 0..segments stitch ring i to
ring i+1 with offset i * shape_vertex_count. -/
def segmentsLoop (edges : List ℕ) (vcount : ℕ) : ℕ → ℕ → List ℕ × ℕ → Option (List ℕ × ℕ)
  | 0, _, st => some st
  | n + 1, i, st => do
    let st2 ← edgePairsLoop vcount (i * vcount) edges st
    segmentsLoop edges vcount n (i + 1) st2

/-- extrude from src/extrude.rs.  `path.len() - 1` underflows usize on an
empty path (none).  The three buffers are zero-initialized at their full
sizes, the vertex and index loops fill them in place, the index buffer is
reversed end-to-end, and the mesh is assembled; the UV attribute is inserted
only when u_coords is nonempty. -/
def extrude (shape : ExtrudeShape) (path : List OrientedPoint) : Option ExtrudedMesh := do
  if path.length = 0 then none
  else
    let shape_vertex_count := shape.vertices.length
    let segments := path.length - 1
    let edge_loops := path.length
    let vertex_count := shape_vertex_count * edge_loops
    let tri_count := shape.edges.length * segments + 2 * shape.face_indices.length
    let index_count := tri_count * 3
    let st0 : List Vec3 × List Vec3 × List (ℝ × ℝ) :=
      (List.replicate vertex_count Vec3.zero, List.replicate vertex_count Vec3.zero,
        List.replicate vertex_count ((0 : ℝ), (0 : ℝ)))
    let st ← ringsLoop shape path 0 st0
    let idx ← segmentsLoop shape.edges shape_vertex_count segments 0
      (List.replicate index_count 0, 0)
    some { positions := st.1
           normals := st.2.1
           uvs := if shape.u_coords.isEmpty then none else some st.2.2
           indices := idx.1.reverse }

/-! Specification-side definitions (written from the wording of the spec, for
comparison with the embedded source functions above). -/

/-- Spec formula for the tangent (section 4.2 of the spec):
T(t) = -(1-t)^2 C0 + (t(3t-4)+1) C1 + (-3t^2+2t) C2 + t^2 C3. -/
def specTangentFormula (c : BezierCurve) (t : ℝ) : Vec3 :=
  c.points 0 * (-(1 - t) ^ 2) +
    c.points 1 * (t * (3 * t - 4) + 1) +
    c.points 2 * (-3 * t ^ 2 + 2 * t) +
    c.points 3 * t ^ 2

/-- The analytic derivative of the cubic Bezier:
P'(t) = 3(1-t)^2 (C1-C0) + 6(1-t)t (C2-C1) + 3t^2 (C3-C2). -/
def bezierDerivative (c : BezierCurve) (t : ℝ) : Vec3 :=
  (c.points 1 - c.points 0) * (3 * (1 - t) ^ 2) +
    (c.points 2 - c.points 1) * (6 * (1 - t) * t) +
    (c.points 3 - c.points 2) * (3 * t ^ 2)

/-- Consecutive pairs of the flattened outline edge list: [a0, b0, a1, b1, ...]
becomes [(a0,b0), (a1,b1), ...]. -/
def edgePairs : List ℕ → List (ℕ × ℕ)
  | a :: b :: rest => (a, b) :: edgePairs rest
  | _ => []

/-- The six indices a, b, c, c, d, a emitted for one outline edge pair (α, β)
on segment i, per the spec: a = (i+1)V+α, b = iV+α, c = iV+β, d = (i+1)V+β. -/
def quadIndices (vcount i : ℕ) (e : ℕ × ℕ) : List ℕ :=
  [(i + 1) * vcount + e.1, i * vcount + e.1, i * vcount + e.2,
    i * vcount + e.2, (i + 1) * vcount + e.2, (i + 1) * vcount + e.1]

/-- All indices emitted for segment i, over the edge pairs in order. -/
def segmentIndices (edges : List ℕ) (vcount i : ℕ) : List ℕ :=
  (edgePairs edges).flatMap (quadIndices vcount i)

/-- The full emitted stitching sequence over segments 0..segments-1. -/
def stitchIndices (edges : List ℕ) (vcount segments : ℕ) : List ℕ :=
  (List.range segments).flatMap (segmentIndices edges vcount)

/-- Claim-side: the curve position sampled at parameter k/10 (the 10+1 sample
parameters of generate_samples are k/10 for k = 0..10). -/
noncomputable def samplePos (c : BezierCurve) (k : ℕ) : Vec3 :=
  (c.get_point ((k : ℝ) / 10)).1

/-- Claim-side: the chord length between consecutive position samples j and
j+1. -/
noncomputable def sampleChord (c : BezierCurve) (j : ℕ) : ℝ :=
  (samplePos c (j + 1) - samplePos c j).length

/-- Claim-side: the cumulative chord length after the first k chords. -/
noncomputable def sampleCum (c : BezierCurve) (k : ℕ) : ℝ :=
  ∑ j ∈ Finset.range k, sampleChord c j

/-! Concrete inputs used by witnesses and counterexamples. -/

/-- A concrete oriented point (identity rotation at the origin). -/
def exPoint : OrientedPoint := ⟨⟨0, 0, 0⟩, ⟨0, 0, 0, 1⟩, 0⟩

/-- A second concrete oriented point, one unit along z. -/
def exPoint2 : OrientedPoint := ⟨⟨0, 0, 1⟩, ⟨0, 0, 0, 1⟩, 1⟩

/-- A concrete square cross-section: 4 vertices, 4 outline edges, 2 cap
triangles, no UVs. -/
def exShape : ExtrudeShape :=
  { vertices := [⟨0, 0, 0⟩, ⟨1, 0, 0⟩, ⟨1, 1, 0⟩, ⟨0, 1, 0⟩]
    normals := [⟨0, -1, 0⟩, ⟨1, 0, 0⟩, ⟨0, 1, 0⟩, ⟨-1, 0, 0⟩]
    face_indices := [0, 1, 2, 0, 2, 3]
    edges := [0, 1, 1, 2, 2, 3, 3, 0]
    u_coords := [] }

/-- A concrete Bezier curve built through the public constructor. -/
noncomputable def exCurve : BezierCurve :=
  BezierCurve.new ![⟨0, 0, 0⟩, ⟨0, 0, 10⟩, ⟨0, 10, 0⟩, ⟨0, 10, 10⟩] none

/-- A concrete curve built through the constructor with a custom table size. -/
noncomputable def exCurveSmall : BezierCurve :=
  BezierCurve.new ![⟨0, 0, 0⟩, ⟨0, 0, 10⟩, ⟨0, 10, 0⟩, ⟨0, 10, 10⟩] (some 2)

/-- A concrete curve state whose arc-length table has been populated (len = 1,
arc_lengths = [0, 1], total length 1), as after calculate_arc_lengths on a
unit-length segment. -/
def exCurveTable : BezierCurve :=
  { points := ![⟨0, 0, 0⟩, ⟨0, 0, 0⟩, ⟨0, 0, 0⟩, ⟨0, 0, 1⟩]
    sampled_lengths := []
    arc_lengths := [0, 1]
    len := 1
    length := 1 }

/-! Component lemmas for the embedded vector algebra. -/

@[simp] theorem Vec3.add_x (a b : Vec3) : (a + b).x = a.x + b.x := rfl

@[simp] theorem Vec3.add_y (a b : Vec3) : (a + b).y = a.y + b.y := rfl

@[simp] theorem Vec3.add_z (a b : Vec3) : (a + b).z = a.z + b.z := rfl

@[simp] theorem Vec3.sub_x (a b : Vec3) : (a - b).x = a.x - b.x := rfl

@[simp] theorem Vec3.sub_y (a b : Vec3) : (a - b).y = a.y - b.y := rfl

@[simp] theorem Vec3.sub_z (a b : Vec3) : (a - b).z = a.z - b.z := rfl

@[simp] theorem Vec3.neg_x (a : Vec3) : (-a).x = -a.x := rfl

@[simp] theorem Vec3.neg_y (a : Vec3) : (-a).y = -a.y := rfl

@[simp] theorem Vec3.neg_z (a : Vec3) : (-a).z = -a.z := rfl

@[simp] theorem Vec3.mul_x (v : Vec3) (s : ℝ) : (v * s).x = v.x * s := rfl

@[simp] theorem Vec3.mul_y (v : Vec3) (s : ℝ) : (v * s).y = v.y * s := rfl

@[simp] theorem Vec3.mul_z (v : Vec3) (s : ℝ) : (v * s).z = v.z * s := rfl

/-- The position component of get_point is calculate_point at the standard
powers. -/
theorem get_point_fst (c : BezierCurve) (t : ℝ) :
    (c.get_point t).1 = c.calculate_point t (t * t) ((t * t) * t) (1 - t)
      ((1 - t) * (1 - t)) ((1 - t) * (1 - t) * (1 - t)) := rfl

/-- The tangent component of get_point is calculate_tangent at the standard
powers. -/
theorem get_point_tangent (c : BezierCurve) (t : ℝ) :
    (c.get_point t).2.1 = c.calculate_tangent t (t * t) ((1 - t) * (1 - t)) := rfl

/-- Position at parameter 1 is the fourth control point (exact in the real
model; in f32 it is also exact because all other Bernstein weights vanish). -/
theorem get_point_one_pos (c : BezierCurve) : (c.get_point 1).1 = c.points 3 := by
  rw [get_point_fst]
  unfold BezierCurve.calculate_point
  ext <;> simp

/-- Position at parameter 0 is the first control point. -/
theorem get_point_zero_pos (c : BezierCurve) : (c.get_point 0).1 = c.points 0 := by
  rw [get_point_fst]
  unfold BezierCurve.calculate_point
  ext <;> simp

/-- The raw vector normalized inside calculate_tangent coincides with the
spec tangent formula. -/
theorem calculate_tangent_eq_spec (c : BezierCurve) (t : ℝ) :
    c.calculate_tangent t (t * t) ((1 - t) * (1 - t)) = (specTangentFormula c t).normalize := by
  unfold BezierCurve.calculate_tangent specTangentFormula
  congr 1
  ext <;> simp <;> ring

/-- C5: for every parameter t, the tangent used by get_oriented_point (via
get_point) to build the frame equals the normalization of the literal spec
formula -(1-t)^2 C0 + (t(3t-4)+1) C1 + (-3t^2+2t) C2 + t^2 C3, and that
formula differs from the analytic derivative of the cubic Bezier. -/
theorem tangent_formula_spec :
    (∀ (c : BezierCurve) (t : ℝ),
      (c.get_point t).2.1 = (specTangentFormula c t).normalize) ∧
    (∃ (c : BezierCurve) (t : ℝ), specTangentFormula c t ≠ bezierDerivative c t) := by
  constructor
  · intro c t
    rw [get_point_tangent, calculate_tangent_eq_spec]
  · refine ⟨⟨![⟨0, 0, 0⟩, ⟨1, 0, 0⟩, ⟨0, 0, 0⟩, ⟨0, 0, 0⟩], [], [], 0, 0⟩, 0, ?_⟩
    intro h
    have hx := congrArg Vec3.x h
    simp [specTangentFormula, bezierDerivative] at hx

/-! Path generation: the generate_path while loop runs exactly subdivisions
times for subdivisions ≥ 1 (in the exact real model the counter is k/S). -/

theorem pathLoop_eq (c : BezierCurve) (S : ℕ) (hS : 1 ≤ S) :
    ∀ fuel k, S - k ≤ fuel →
      c.pathLoop (1 / (S : ℝ)) fuel ((k : ℝ) / (S : ℝ)) =
        (List.range' k (S - k)).map (fun m : ℕ => c.get_oriented_point ((m : ℝ) / (S : ℝ))) := by
  have hS0 : (0 : ℝ) < (S : ℝ) := by exact_mod_cast hS
  intro fuel
  induction fuel with
  | zero =>
    intro k hk
    have h0 : S - k = 0 := by omega
    rw [h0]
    simp [BezierCurve.pathLoop]
  | succ n ih =>
    intro k hk
    by_cases hkS : k < S
    · have hlt : (k : ℝ) / (S : ℝ) < 1 := by
        rw [div_lt_one hS0]
        exact_mod_cast hkS
      have hstep : (k : ℝ) / (S : ℝ) + 1 / (S : ℝ) = ((k + 1 : ℕ) : ℝ) / (S : ℝ) := by
        push_cast
        ring
      rw [BezierCurve.pathLoop, if_pos hlt, hstep, ih (k + 1) (by omega)]
      have hsk : S - k = (S - (k + 1)) + 1 := by omega
      rw [hsk, List.range'_succ]
      simp
    · have hge : (1 : ℝ) ≤ (k : ℝ) / (S : ℝ) := by
        rw [le_div_iff hS0]
        have : (S : ℝ) ≤ (k : ℝ) := by exact_mod_cast Nat.le_of_not_lt hkS
        linarith
      have h0 : S - k = 0 := by omega
      rw [BezierCurve.pathLoop, if_neg (not_lt.mpr hge), h0]
      simp

/-- Closed form of generate_path for subdivisions ≥ 1. -/
theorem generate_path_eq (c : BezierCurve) (S : ℕ) (hS : 1 ≤ S) :
    c.generate_path S =
      (List.range S).map (fun m : ℕ => c.get_oriented_point ((m : ℝ) / (S : ℝ))) ++
        [c.get_oriented_point 1] := by
  unfold BezierCurve.generate_path
  have h0 : (0 : ℝ) = ((0 : ℕ) : ℝ) / (S : ℝ) := by simp
  rw [h0, pathLoop_eq c S hS (S + 1) 0 (by omega)]
  rw [List.range_eq_range']
  simp

/-- C2: for every subdivision count S ≥ 1, generate_path(S) returns exactly
S + 1 oriented points, the last point is the one evaluated at t = 1, and its
position is exactly the fourth control point C3. -/
theorem generate_path_count_and_endpoint (c : BezierCurve) (S : ℕ) (hS : 1 ≤ S) :
    (c.generate_path S).length = S + 1 ∧
    (c.generate_path S).getLast? = some (c.get_oriented_point 1) ∧
    (c.get_oriented_point 1).position = c.points 3 := by
  refine ⟨?_, ?_, ?_⟩
  · rw [generate_path_eq c S hS, List.length_append, List.length_map, List.length_range]
    rfl
  · rw [generate_path_eq c S hS]
    exact List.getLast?_concat _
  · show (c.get_point 1).1 = c.points 3
    exact get_point_one_pos c

/-- Witness for C2 at the concrete curve exCurve with S = 1. -/
theorem generate_path_count_and_endpoint_witness :
    1 ≤ 1 ∧
    ((exCurve.generate_path 1).length = 1 + 1 ∧
      (exCurve.generate_path 1).getLast? = some (exCurve.get_oriented_point 1) ∧
      (exCurve.get_oriented_point 1).position = exCurve.points 3) :=
  ⟨le_refl 1, generate_path_count_and_endpoint exCurve 1 (le_refl 1)⟩

/-! The custom-height path is the plain path with each point's y overridden. -/

theorem pathLoopWithHeight_eq_map (c : BezierCurve) (step : ℝ) (hf : ℝ → ℝ → ℝ) :
    ∀ fuel i, c.pathLoopWithHeight step hf fuel i =
      (c.pathLoop step fuel i).map (BezierCurve.heightPoint hf) := by
  intro fuel
  induction fuel with
  | zero =>
    intro i
    simp [BezierCurve.pathLoopWithHeight, BezierCurve.pathLoop]
  | succ n ih =>
    intro i
    by_cases h : i < 1 <;>
      simp [BezierCurve.pathLoopWithHeight, BezierCurve.pathLoop, h, ih]

/-- C9: for every subdivision count S ≥ 1 and height function hf,
generate_path_with_custom_height_function returns as many points as
generate_path, is pointwise the heightPoint override of generate_path, and
heightPoint preserves rotation, v coordinate and the x and z position
components, replacing only y by hf applied to the point's own x and z. -/
theorem generate_path_with_height_frame_preserved (c : BezierCurve) (S : ℕ)
    (hf : ℝ → ℝ → ℝ) (hS : 1 ≤ S) :
    (c.generate_path_with_custom_height_function S hf).length = (c.generate_path S).length ∧
    c.generate_path_with_custom_height_function S hf =
      (c.generate_path S).map (BezierCurve.heightPoint hf) ∧
    (∀ p : OrientedPoint,
      (BezierCurve.heightPoint hf p).rotation = p.rotation ∧
      (BezierCurve.heightPoint hf p).v_coordinate = p.v_coordinate ∧
      (BezierCurve.heightPoint hf p).position.x = p.position.x ∧
      (BezierCurve.heightPoint hf p).position.z = p.position.z ∧
      (BezierCurve.heightPoint hf p).position.y = hf p.position.x p.position.z) := by
  have hmap : c.generate_path_with_custom_height_function S hf =
      (c.generate_path S).map (BezierCurve.heightPoint hf) := by
    unfold BezierCurve.generate_path_with_custom_height_function BezierCurve.generate_path
    rw [pathLoopWithHeight_eq_map]
    simp
  refine ⟨by rw [hmap]; simp, hmap, ?_⟩
  intro p
  simp [BezierCurve.heightPoint]

/-- Witness for C9 at the concrete curve exCurve, S = 1, and an explicit
height function. -/
theorem generate_path_with_height_frame_preserved_witness :
    1 ≤ 1 ∧
    ((exCurve.generate_path_with_custom_height_function 1 (fun a b => a + b)).length =
        (exCurve.generate_path 1).length ∧
      exCurve.generate_path_with_custom_height_function 1 (fun a b => a + b) =
        (exCurve.generate_path 1).map (BezierCurve.heightPoint (fun a b => a + b)) ∧
      (∀ p : OrientedPoint,
        (BezierCurve.heightPoint (fun a b : ℝ => a + b) p).rotation = p.rotation ∧
        (BezierCurve.heightPoint (fun a b : ℝ => a + b) p).v_coordinate = p.v_coordinate ∧
        (BezierCurve.heightPoint (fun a b : ℝ => a + b) p).position.x = p.position.x ∧
        (BezierCurve.heightPoint (fun a b : ℝ => a + b) p).position.z = p.position.z ∧
        (BezierCurve.heightPoint (fun a b : ℝ => a + b) p).position.y =
          p.position.x + p.position.z)) :=
  ⟨le_refl 1, generate_path_with_height_frame_preserved exCurve 1 (fun a b => a + b) (le_refl 1)⟩

/-! generate_samples: closed form and monotonicity (claim C8). -/

theorem get_point_points_congr (c c' : BezierCurve) (h : c.points = c'.points) (t : ℝ) :
    c.get_point t = c'.get_point t := by
  unfold BezierCurve.get_point BezierCurve.calculate_tangent BezierCurve.calculate_normal
    BezierCurve.calculate_point
  rw [h]

theorem samplesLoop_points_congr (c c' : BezierCurve) (h : c.points = c'.points) :
    ∀ fuel f total prev, c.samplesLoop fuel f total prev = c'.samplesLoop fuel f total prev := by
  intro fuel
  induction fuel with
  | zero => intro f total prev; simp [BezierCurve.samplesLoop]
  | succ n ih =>
    intro f total prev
    by_cases hf : f < 1 <;>
      simp [BezierCurve.samplesLoop, hf, get_point_points_congr c c' h, ih]

theorem generate_samples_points_congr (c c' : BezierCurve) (h : c.points = c'.points) :
    BezierCurve.generate_samples c = BezierCurve.generate_samples c' := by
  simp only [BezierCurve.generate_samples]
  rw [samplesLoop_points_congr c c' h, get_point_points_congr c c' h, h]

theorem samplesLoop_eq (c : BezierCurve) :
    ∀ (fuel k : ℕ), k ≤ 9 → 9 - k ≤ fuel →
      c.samplesLoop fuel (((k : ℝ) + 1) / 10) (sampleCum c k) (samplePos c k) =
        ((List.range' (k + 1) (9 - k)).map (fun m : ℕ => sampleCum c m),
          sampleCum c 9, samplePos c 9) := by
  intro fuel
  induction fuel with
  | zero =>
    intro k hk9 hfuel
    have hk : k = 9 := by omega
    subst hk
    simp [BezierCurve.samplesLoop]
  | succ n ih =>
    intro k hk9 hfuel
    by_cases hk : k ≤ 8
    · have hlt : ((k : ℝ) + 1) / 10 < 1 := by
        rw [div_lt_one (by norm_num)]
        have : (k : ℝ) ≤ 8 := by exact_mod_cast hk
        linarith
      have hpt : (c.get_point (((k : ℝ) + 1) / 10)).1 = samplePos c (k + 1) := by
        rw [samplePos]
        congr 2
        push_cast
        ring
      have htot : sampleCum c k + (samplePos c (k + 1) - samplePos c k).length
          = sampleCum c (k + 1) := by
        rw [sampleCum, sampleCum, Finset.sum_range_succ, sampleChord]
      have hstep : ((k : ℝ) + 1) / 10 + 1 / 10 = (((k + 1 : ℕ) : ℝ) + 1) / 10 := by
        push_cast
        ring
      have hrange : 9 - k = (9 - (k + 1)) + 1 := by omega
      rw [BezierCurve.samplesLoop]
      simp only [if_pos hlt, hpt, htot, hstep, ih (k + 1) (by omega) (by omega)]
      rw [hrange, List.range'_succ]
      simp
    · have hk9' : k = 9 := by omega
      subst hk9'
      rw [BezierCurve.samplesLoop]
      rw [if_neg (by norm_num)]
      simp

theorem generate_samples_eq (c : BezierCurve) :
    BezierCurve.generate_samples c =
      List.replicate 10 0 ++ (List.range' 1 10).map (fun m : ℕ => sampleCum c m) := by
  have hp0 : c.points 0 = samplePos c 0 := by
    rw [samplePos, show ((0 : ℕ) : ℝ) / 10 = 0 by norm_num]
    exact (get_point_zero_pos c).symm
  have key : c.samplesLoop 10 (1 / 10) 0 (c.points 0) =
      ((List.range' 1 9).map (fun m : ℕ => sampleCum c m), sampleCum c 9, samplePos c 9) := by
    have h := samplesLoop_eq c 10 0 (by omega) (by omega)
    rw [show (((0 : ℕ) : ℝ) + 1) / 10 = 1 / 10 by norm_num,
      show sampleCum c 0 = 0 by simp [sampleCum], ← hp0] at h
    simpa using h
  have hp1 : (c.get_point 1).1 = samplePos c 10 := by
    rw [samplePos, show ((10 : ℕ) : ℝ) / 10 = 1 by norm_num]
  have hlast : sampleCum c 9 + (samplePos c 10 - samplePos c 9).length = sampleCum c 10 := by
    rw [sampleCum, sampleCum]
    conv_rhs => rw [show (10 : ℕ) = 9 + 1 from rfl, Finset.sum_range_succ]
    rw [sampleChord]
  simp only [BezierCurve.generate_samples, key, hp1, hlast]
  rw [show List.range' 1 9 = [1, 2, 3, 4, 5, 6, 7, 8, 9] from rfl,
    show List.range' 1 10 = [1, 2, 3, 4, 5, 6, 7, 8, 9, 10] from rfl]
  simp [List.append_assoc]

theorem sampleChord_nonneg (c : BezierCurve) (j : ℕ) : 0 ≤ sampleChord c j := by
  rw [sampleChord, Vec3.length]
  exact Real.sqrt_nonneg _

theorem sampleCum_nonneg (c : BezierCurve) (k : ℕ) : 0 ≤ sampleCum c k := by
  rw [sampleCum]
  exact Finset.sum_nonneg fun j _ => sampleChord_nonneg c j

theorem sampleCum_mono (c : BezierCurve) {k m : ℕ} (h : k ≤ m) :
    sampleCum c k ≤ sampleCum c m := by
  rw [sampleCum, sampleCum]
  exact Finset.sum_le_sum_of_subset_of_nonneg (Finset.range_subset.mpr h)
    fun j _ _ => sampleChord_nonneg c j

/-- C8: after construction, sampled_lengths is the list of cumulative chord
lengths of the 10+1 uniform position samples (ten allocated zeros followed by
the running totals), it is monotone nondecreasing, starts at 0 and ends at the
total sampled chord length. -/
theorem sampled_lengths_cumulative_monotone (pts : Fin 4 → Vec3) (n : Option ℕ) :
    (BezierCurve.new pts n).sampled_lengths =
      List.replicate 10 0 ++
        (List.range' 1 10).map (fun m : ℕ => sampleCum (BezierCurve.new pts n) m) ∧
    List.Pairwise (· ≤ ·) (BezierCurve.new pts n).sampled_lengths ∧
    (BezierCurve.new pts n).sampled_lengths.head? = some 0 ∧
    (BezierCurve.new pts n).sampled_lengths.getLast? =
      some (sampleCum (BezierCurve.new pts n) 10) := by
  have hsl : (BezierCurve.new pts n).sampled_lengths =
      BezierCurve.generate_samples (BezierCurve.new pts n) := by
    simp only [BezierCurve.new]
    exact generate_samples_points_congr _ _ rfl
  have hform := generate_samples_eq (BezierCurve.new pts n)
  rw [hsl, hform]
  refine ⟨rfl, ?_, ?_, ?_⟩
  · rw [List.pairwise_append]
    refine ⟨List.pairwise_replicate.mpr (Or.inr le_rfl), ?_, ?_⟩
    · rw [List.pairwise_map]
      exact (List.pairwise_lt_range' 1 10).imp
        fun h => sampleCum_mono _ (Nat.le_of_lt h)
    · intro x hx y hy
      rw [List.eq_of_mem_replicate hx]
      obtain ⟨m, _, rfl⟩ := List.mem_map.mp hy
      exact sampleCum_nonneg _ m
  · rfl
  · rfl

/-! Binary search (BezierCurve::map): totality, result bound, and behavior
when every table entry is at least the target. -/

theorem binSearch_some_lt (arc : List ℝ) (target : ℝ) :
    ∀ gap low high idx, high - low = gap → low < high → high ≤ arc.length →
      ∃ j, BezierCurve.binSearch arc target low high idx = some j ∧ j < high := by
  intro gap
  induction gap using Nat.strong_induction_on with
  | _ gap ih =>
    intro low high idx hgap hlh hhigh
    rw [BezierCurve.binSearch, dif_pos hlh]
    have hi : low + (high - low) / 2 < high := by omega
    obtain ⟨v, hv⟩ : ∃ v, arc.get? (low + (high - low) / 2) = some v := by
      cases hgv : arc.get? (low + (high - low) / 2) with
      | none =>
        have := List.get?_eq_none.mp hgv
        omega
      | some v => exact ⟨v, rfl⟩
    simp only [hv]
    by_cases hvt : v < target
    · rw [if_pos hvt]
      by_cases hlh2 : low + (high - low) / 2 + 1 < high
      · exact ih (high - (low + (high - low) / 2 + 1)) (by omega) _ high _ rfl hlh2 hhigh
      · rw [BezierCurve.binSearch, dif_neg hlh2]
        exact ⟨_, rfl, hi⟩
    · rw [if_neg hvt]
      by_cases hlh2 : low < low + (high - low) / 2
      · obtain ⟨j, hj, hjh⟩ := ih (low + (high - low) / 2 - low) (by omega) low _ _ rfl hlh2
          (by omega)
        exact ⟨j, hj, by omega⟩
      · rw [BezierCurve.binSearch, dif_neg hlh2]
        exact ⟨_, rfl, hi⟩

theorem binSearch_all_ge (arc : List ℝ) (target : ℝ) (hall : ∀ x ∈ arc, target ≤ x) :
    ∀ high, 1 ≤ high → high ≤ arc.length → ∀ idx, BezierCurve.binSearch arc target 0 high idx = some 0 := by
  intro high
  induction high using Nat.strong_induction_on with
  | _ high ih =>
    intro h1 hlen idx
    rw [BezierCurve.binSearch, dif_pos (show 0 < high by omega)]
    have hi : 0 + (high - 0) / 2 < high := by omega
    obtain ⟨v, hv⟩ : ∃ v, arc.get? (0 + (high - 0) / 2) = some v := by
      cases hgv : arc.get? (0 + (high - 0) / 2) with
      | none =>
        have := List.get?_eq_none.mp hgv
        omega
      | some v => exact ⟨v, rfl⟩
    simp only [hv]
    rw [if_neg (not_lt.mpr (hall v (List.get?_mem hv)))]
    by_cases hz : 0 + (high - 0) / 2 = 0
    · rw [hz]
      rw [BezierCurve.binSearch, dif_neg (by omega)]
    · exact ih (0 + (high - 0) / 2) (by omega) (by omega) (by omega) _

/-- C7: for u in [0, 1], calling map on a curve whose arc-length table is
still the all-zeros vector set up at construction returns 0 (modelled as
some 0: no panic) rather than failing. -/
theorem map_on_uninitialized_table (c : BezierCurve)
    (htab : c.arc_lengths = List.replicate (c.len + 1) 0)
    (u : ℝ) (hu0 : 0 ≤ u) (hu1 : u ≤ 1) :
    c.map u = some 0 := by
  have hget : ∀ i, i ≤ c.len → c.arc_lengths.get? i = some 0 := by
    intro i hi
    rw [htab, List.get?_eq_get (by simp; omega)]
    simp
  have hall : ∀ x ∈ c.arc_lengths, u * 0 ≤ x := by
    intro x hx
    rw [htab] at hx
    rw [List.eq_of_mem_replicate hx, mul_zero]
  have hbs : BezierCurve.binSearch c.arc_lengths (u * 0) 0 c.len 0 = some 0 := by
    by_cases hlen : 1 ≤ c.len
    · exact binSearch_all_ge _ _ hall c.len hlen (by rw [htab]; simp) 0
    · have h0 : c.len = 0 := by omega
      rw [h0, BezierCurve.binSearch, dif_neg (by omega)]
  rw [mul_zero] at hbs
  simp only [BezierCurve.map, hget c.len le_rfl, hget 0 (Nat.zero_le _), mul_zero,
    Option.bind_eq_bind, Option.some_bind, hbs, gt_iff_lt, lt_self_iff_false, if_false]
  simp

/-- Witness for C7 at a concrete constructed curve and u = 1/2. -/
theorem map_on_uninitialized_table_witness :
    exCurveSmall.arc_lengths = List.replicate (exCurveSmall.len + 1) 0 ∧
    (0 : ℝ) ≤ 1 / 2 ∧ (1 : ℝ) / 2 ≤ 1 ∧
    exCurveSmall.map (1 / 2) = some 0 :=
  ⟨rfl, by norm_num, by norm_num,
    map_on_uninitialized_table exCurveSmall rfl (1 / 2) (by norm_num) (by norm_num)⟩

/-- C10: on a curve whose arc-length table has been populated (monotone data
abstracted by: table length len+1, first entry 0, all entries nonnegative,
last entry total > 0, len ≥ 1), map performs only in-bounds accesses and
never underflows its index arithmetic for u in [0, 1] (the Option result is
some), but for every u < 0 the step-back decrement underflows the unsigned
index at index 0 and map panics (none) instead of returning a value. -/
theorem map_inbounds_and_negative_underflow (c : BezierCurve) (total : ℝ)
    (hlen : 1 ≤ c.len)
    (hlength : c.arc_lengths.length = c.len + 1)
    (h0 : c.arc_lengths.get? 0 = some 0)
    (hnn : ∀ x ∈ c.arc_lengths, 0 ≤ x)
    (htot : c.arc_lengths.get? c.len = some total)
    (hpos : 0 < total) :
    (∀ u : ℝ, 0 ≤ u → u ≤ 1 → (c.map u).isSome = true) ∧
    (∀ u : ℝ, u < 0 → c.map u = none) := by
  constructor
  · intro u hu0 hu1
    have htarget : 0 ≤ u * total := mul_nonneg hu0 (le_of_lt hpos)
    obtain ⟨j, hbs, hjlt⟩ := binSearch_some_lt c.arc_lengths (u * total) c.len 0 c.len 0
      (by omega) (by omega) (by omega)
    obtain ⟨v, hvj⟩ : ∃ v, c.arc_lengths.get? j = some v :=
      ⟨_, List.get?_eq_get (by omega)⟩
    simp only [BezierCurve.map, htot, Option.bind_eq_bind, Option.some_bind, hbs, hvj]
    by_cases hv : u * total < v
    · have hj0 : j ≠ 0 := by
        intro hj
        rw [hj, h0] at hvj
        have : v = 0 := by injection hvj.symm
        rw [this] at hv
        linarith
      obtain ⟨w, hw⟩ : ∃ w, c.arc_lengths.get? (j - 1) = some w :=
        ⟨_, List.get?_eq_get (by omega)⟩
      rw [if_pos (by exact hv), if_neg hj0]
      simp only [Option.some_bind, hw]
      by_cases hweq : w = u * total
      · rw [if_pos hweq]
        rfl
      · rw [if_neg hweq]
        rw [show j - 1 + 1 = j by omega, hvj]
        rfl
    · rw [if_neg (by exact hv)]
      by_cases hveq : v = u * total
      · rw [if_pos hveq]
        rfl
      · obtain ⟨w, hw⟩ : ∃ w, c.arc_lengths.get? (j + 1) = some w :=
          ⟨_, List.get?_eq_get (by omega)⟩
        rw [if_neg hveq, hw]
        rfl
  · intro u hneg
    have htarget : u * total < 0 := mul_neg_of_neg_of_pos hneg hpos
    have hall : ∀ x ∈ c.arc_lengths, u * total ≤ x :=
      fun x hx => le_trans (le_of_lt htarget) (hnn x hx)
    have hbs := binSearch_all_ge c.arc_lengths (u * total) hall c.len hlen (by omega) 0
    simp only [BezierCurve.map, htot, Option.bind_eq_bind, Option.some_bind, hbs, h0]
    rw [if_pos (by exact htarget)]
    simp

/-- Witness for C10 at the concrete populated table [0, 1] with len = 1. -/
theorem map_inbounds_and_negative_underflow_witness :
    1 ≤ exCurveTable.len ∧
    exCurveTable.arc_lengths.length = exCurveTable.len + 1 ∧
    exCurveTable.arc_lengths.get? 0 = some 0 ∧
    (∀ x ∈ exCurveTable.arc_lengths, 0 ≤ x) ∧
    exCurveTable.arc_lengths.get? exCurveTable.len = some 1 ∧
    (0 : ℝ) < 1 ∧
    ((∀ u : ℝ, 0 ≤ u → u ≤ 1 → (exCurveTable.map u).isSome = true) ∧
      (∀ u : ℝ, u < 0 → exCurveTable.map u = none)) :=
  ⟨le_rfl, rfl, rfl, by intro x hx; simp [exCurveTable] at hx; rcases hx with h | h <;> simp [h],
    rfl, one_pos,
    map_inbounds_and_negative_underflow exCurveTable 1 le_rfl rfl rfl
      (by intro x hx; simp [exCurveTable] at hx; rcases hx with h | h <;> simp [h])
      rfl one_pos⟩

/-! Cross-section outline extraction (claim C3): the retain pass with its
removed-accumulator is equivalent to filtering out every edge whose reverse
occurs in the original per-triangle edge list. -/

theorem count_eq_one_of_nodup_mem {α : Type} [BEq α] [LawfulBEq α] {l : List α} {a : α}
    (hnd : l.Nodup) (ha : a ∈ l) : l.count a = 1 := by
  induction l with
  | nil => simp at ha
  | cons b tl ih =>
    rcases List.mem_cons.mp ha with rfl | hmem
    · have h0 : tl.count a = 0 :=
        List.count_eq_zero.mpr (List.nodup_cons.mp hnd).1
      rw [List.count_cons, h0]
      simp
    · have hbtl : b ∉ tl := (List.nodup_cons.mp hnd).1
      have hne : a ≠ b := fun h => hbtl (h ▸ hmem)
      rw [List.count_cons, ih (List.nodup_cons.mp hnd).2 hmem]
      simp [hne, Ne.symm hne]

theorem retainLoop_eq_filter (orig : List (ℕ × ℕ)) :
    ∀ rest removed, (∀ x ∈ removed, x ∈ orig) → (∀ x ∈ rest, x ∈ orig) →
      retainLoop orig removed rest =
        rest.filter (fun e => decide ((e.2, e.1) ∉ orig)) := by
  intro rest
  induction rest with
  | nil =>
    intro removed _ _
    simp [retainLoop]
  | cons e tl ih =>
    intro removed hrem htl
    have htl' : ∀ x ∈ tl, x ∈ orig := fun x hx => htl x (List.mem_cons_of_mem e hx)
    by_cases hswap : (e.2, e.1) ∈ orig
    · rw [retainLoop, if_pos (Or.inr hswap)]
      rw [ih (removed ++ [e]) ?_ htl']
      · simp [List.filter_cons, hswap]
      · intro x hx
        rcases List.mem_append.mp hx with h | h
        · exact hrem x h
        · rw [List.mem_singleton.mp h]
          exact htl e (List.mem_cons_self e tl)
    · have hnr : (e.2, e.1) ∉ removed := fun h => hswap (hrem _ h)
      rw [retainLoop, if_neg (by tauto), ih removed hrem htl']
      simp [List.filter_cons, hswap]

/-- C3: an oriented edge (a, b) of the per-triangle edge list is excluded by
the interior-edge elimination if and only if the opposite edge (b, a) appears
somewhere in the original list (the survivors are exactly the filter), and on
a per-triangle list without duplicate directed edges (two-manifold disc input)
every surviving edge appears in the result exactly once and no edge whose
reverse occurs in the list survives. -/
theorem outline_edge_elimination_spec (index_array : List ℕ) (tris : List (ℕ × ℕ))
    (htris : triangleEdges index_array = some tris) (hnd : tris.Nodup) :
    removeInteriorEdges tris = tris.filter (fun e => decide ((e.2, e.1) ∉ tris)) ∧
    (∀ e ∈ removeInteriorEdges tris,
      (removeInteriorEdges tris).count e = 1 ∧ (e.2, e.1) ∉ tris) := by
  have hfilter : removeInteriorEdges tris =
      tris.filter (fun e => decide ((e.2, e.1) ∉ tris)) :=
    retainLoop_eq_filter tris tris [] (by simp) (fun x hx => hx)
  refine ⟨hfilter, ?_⟩
  intro e he
  have hnd' : (removeInteriorEdges tris).Nodup := by
    rw [hfilter]
    exact hnd.filter _
  constructor
  · exact count_eq_one_of_nodup_mem hnd' he
  · rw [hfilter] at he
    have := List.of_mem_filter he
    exact of_decide_eq_true this

/-- Witness for C3 on the two-triangle square cross-section index list. -/
theorem outline_edge_elimination_spec_witness :
    triangleEdges [0, 1, 2, 0, 2, 3] =
      some [(0, 1), (1, 2), (2, 0), (0, 2), (2, 3), (3, 0)] ∧
    ([(0, 1), (1, 2), (2, 0), (0, 2), (2, 3), (3, 0)] : List (ℕ × ℕ)).Nodup ∧
    (removeInteriorEdges [(0, 1), (1, 2), (2, 0), (0, 2), (2, 3), (3, 0)] =
        ([(0, 1), (1, 2), (2, 0), (0, 2), (2, 3), (3, 0)] : List (ℕ × ℕ)).filter
          (fun e => decide ((e.2, e.1) ∉
            ([(0, 1), (1, 2), (2, 0), (0, 2), (2, 3), (3, 0)] : List (ℕ × ℕ)))) ∧
      (∀ e ∈ removeInteriorEdges [(0, 1), (1, 2), (2, 0), (0, 2), (2, 3), (3, 0)],
        (removeInteriorEdges [(0, 1), (1, 2), (2, 0), (0, 2), (2, 3), (3, 0)]).count e = 1 ∧
          (e.2, e.1) ∉ ([(0, 1), (1, 2), (2, 0), (0, 2), (2, 3), (3, 0)] : List (ℕ × ℕ)))) :=
  ⟨rfl, by decide, outline_edge_elimination_spec [0, 1, 2, 0, 2, 3] _ rfl (by decide)⟩

/-! Extrusion vertex phase: the loops succeed and preserve buffer lengths. -/

theorem setChecked_some {α : Type} (l : List α) (i : ℕ) (a : α) (h : i < l.length) :
    setChecked l i a = some (l.set i a) := if_pos h

theorem vertexLoop_spec (shape : ExtrudeShape) (point : OrientedPoint) (offset : ℕ)
    (hnorm : shape.vertices.length ≤ shape.normals.length)
    (huv : shape.u_coords = [] ∨ shape.vertices.length ≤ shape.u_coords.length) :
    ∀ (n j : ℕ) (st : List Vec3 × List Vec3 × List (ℝ × ℝ)),
      j + n ≤ shape.vertices.length →
      offset + shape.vertices.length ≤ st.1.length →
      offset + shape.vertices.length ≤ st.2.1.length →
      offset + shape.vertices.length ≤ st.2.2.length →
      ∃ st2, vertexLoop shape point offset n j st = some st2 ∧
        st2.1.length = st.1.length ∧ st2.2.1.length = st.2.1.length ∧
        st2.2.2.length = st.2.2.length := by
  intro n
  induction n with
  | zero =>
    intro j st _ _ _ _
    exact ⟨st, rfl, rfl, rfl, rfl⟩
  | succ m ih =>
    intro j st hj h1 h2 h3
    have hjV : j < shape.vertices.length := by omega
    obtain ⟨v, hv⟩ : ∃ v, shape.vertices.get? j = some v :=
      ⟨_, List.get?_eq_get hjV⟩
    obtain ⟨nr, hnr⟩ : ∃ nr, shape.normals.get? j = some nr :=
      ⟨_, List.get?_eq_get (by omega)⟩
    cases hemp : shape.u_coords.isEmpty with
    | true =>
      obtain ⟨st2, hloop, hl1, hl2, hl3⟩ := ih (j + 1)
        (st.1.set (offset + j) (point.local_to_world v),
          st.2.1.set (offset + j) (point.local_to_world_direction nr), st.2.2)
        (by omega) (by simp; omega) (by simp; omega) (by simp; omega)
      refine ⟨st2, ?_, ?_, ?_, ?_⟩
      · simp only [vertexLoop, hv, hnr, hemp, Option.bind_eq_bind, Option.some_bind,
          setChecked_some st.1 (offset + j) _ (by omega),
          setChecked_some st.2.1 (offset + j) _ (by omega)]
        exact hloop
      · rw [hl1]
        simp
      · rw [hl2]
        simp
      · exact hl3
    | false =>
      have hulen : shape.vertices.length ≤ shape.u_coords.length := by
        rcases huv with h | h
        · rw [h] at hemp
          simp at hemp
        · exact h
      obtain ⟨u, hu⟩ : ∃ u, shape.u_coords.get? j = some u :=
        ⟨_, List.get?_eq_get (by omega)⟩
      obtain ⟨st2, hloop, hl1, hl2, hl3⟩ := ih (j + 1)
        (st.1.set (offset + j) (point.local_to_world v),
          st.2.1.set (offset + j) (point.local_to_world_direction nr),
          st.2.2.set (offset + j) (u, point.v_coordinate))
        (by omega) (by simp; omega) (by simp; omega) (by simp; omega)
      refine ⟨st2, ?_, ?_, ?_, ?_⟩
      · simp only [vertexLoop, hv, hnr, hemp, hu, Option.bind_eq_bind, Option.some_bind,
          setChecked_some st.1 (offset + j) _ (by omega),
          setChecked_some st.2.1 (offset + j) _ (by omega),
          setChecked_some st.2.2 (offset + j) _ (by omega)]
        exact hloop
      · rw [hl1]
        simp
      · rw [hl2]
        simp
      · rw [hl3]
        simp

theorem ringsLoop_spec (shape : ExtrudeShape)
    (hnorm : shape.vertices.length ≤ shape.normals.length)
    (huv : shape.u_coords = [] ∨ shape.vertices.length ≤ shape.u_coords.length) :
    ∀ (path : List OrientedPoint) (i : ℕ) (st : List Vec3 × List Vec3 × List (ℝ × ℝ)),
      (i + path.length) * shape.vertices.length ≤ st.1.length →
      (i + path.length) * shape.vertices.length ≤ st.2.1.length →
      (i + path.length) * shape.vertices.length ≤ st.2.2.length →
      ∃ st2, ringsLoop shape path i st = some st2 ∧
        st2.1.length = st.1.length ∧ st2.2.1.length = st.2.1.length ∧
        st2.2.2.length = st.2.2.length := by
  intro path
  induction path with
  | nil =>
    intro i st _ _ _
    exact ⟨st, rfl, rfl, rfl, rfl⟩
  | cons p rest ih =>
    intro i st h1 h2 h3
    have hmul : ∀ k : ℕ, (i + (rest.length + 1)) * k = i * k + k + rest.length * k := by
      intro k
      ring
    obtain ⟨st1, hv, hv1, hv2, hv3⟩ := vertexLoop_spec shape p (i * shape.vertices.length)
      hnorm huv shape.vertices.length 0 st (by omega)
      (by rw [List.length_cons] at h1; rw [hmul] at h1; omega)
      (by rw [List.length_cons] at h2; rw [hmul] at h2; omega)
      (by rw [List.length_cons] at h3; rw [hmul] at h3; omega)
    obtain ⟨st2, hr, hr1, hr2, hr3⟩ := ih (i + 1) st1
      (by rw [hv1]; rw [List.length_cons] at h1; rw [hmul] at h1; calc
            (i + 1 + rest.length) * shape.vertices.length
              = i * shape.vertices.length + shape.vertices.length +
                rest.length * shape.vertices.length := by ring
            _ ≤ st.1.length := by omega)
      (by rw [hv2]; rw [List.length_cons] at h2; rw [hmul] at h2; calc
            (i + 1 + rest.length) * shape.vertices.length
              = i * shape.vertices.length + shape.vertices.length +
                rest.length * shape.vertices.length := by ring
            _ ≤ st.2.1.length := by omega)
      (by rw [hv3]; rw [List.length_cons] at h3; rw [hmul] at h3; calc
            (i + 1 + rest.length) * shape.vertices.length
              = i * shape.vertices.length + shape.vertices.length +
                rest.length * shape.vertices.length := by ring
            _ ≤ st.2.2.length := by omega)
    refine ⟨st2, ?_, ?_, ?_, ?_⟩
    · simp only [ringsLoop, hv, Option.bind_eq_bind, Option.some_bind]
      exact hr
    · rw [hr1, hv1]
    · rw [hr2, hv2]
    · rw [hr3, hv3]

/-! Extrusion index phase: sequential writes into the zero-initialized index
buffer produce the emitted stitching sequence followed by the untouched
zero-filled cap slots. -/

theorem setChecked_pad (P : List ℕ) (k i : ℕ) (x : ℕ) (hi : i = P.length) (hk : 1 ≤ k) :
    setChecked (P ++ List.replicate k 0) i x =
      some ((P ++ [x]) ++ List.replicate (k - 1) 0) := by
  subst hi
  rw [setChecked_some _ _ _ (by simp; omega)]
  congr 1
  obtain ⟨k2, rfl⟩ : ∃ k2, k = k2 + 1 := ⟨k - 1, by omega⟩
  rw [List.replicate_succ, List.set_append, if_neg (by omega)]
  simp

theorem length_edgePairsAux :
    ∀ (n : ℕ) (es : List ℕ), es.length ≤ n → (edgePairs es).length = es.length / 2 := by
  intro n
  induction n with
  | zero =>
    intro es h
    have hnil : es = [] := List.length_eq_zero.mp (by omega)
    subst hnil
    simp [edgePairs]
  | succ m ih =>
    intro es h
    match es with
    | [] => simp [edgePairs]
    | [a] => simp [edgePairs]
    | a :: b :: rest =>
      have hr := ih rest (by simp at h; omega)
      simp [edgePairs, hr]
      omega

theorem length_edgePairs (es : List ℕ) : (edgePairs es).length = es.length / 2 :=
  length_edgePairsAux es.length es le_rfl

theorem length_segmentIndices (es : List ℕ) (vcount i : ℕ) (heven : es.length % 2 = 0) :
    (segmentIndices es vcount i).length = 3 * es.length := by
  have hq : ∀ e : ℕ × ℕ, (quadIndices vcount i e).length = 6 := fun e => rfl
  rw [segmentIndices, List.length_flatMap]
  rw [show (List.map (List.length ∘ quadIndices vcount i) (edgePairs es)) =
      List.map (fun _ => 6) (edgePairs es) from List.map_congr_left fun e _ => hq e]
  rw [List.map_const', List.sum_replicate, smul_eq_mul, length_edgePairs]
  omega

theorem edgePairsLoopAux (vcount i : ℕ) :
    ∀ (n : ℕ) (es P : List ℕ) (k : ℕ), es.length ≤ n → es.length % 2 = 0 →
      3 * es.length ≤ k →
      edgePairsLoop vcount (i * vcount) es (P ++ List.replicate k 0, P.length) =
        some ((P ++ segmentIndices es vcount i) ++ List.replicate (k - 3 * es.length) 0,
          P.length + 3 * es.length) := by
  intro n
  induction n with
  | zero =>
    intro es P k hn heven hk
    have hnil : es = [] := List.length_eq_zero.mp (by omega)
    subst hnil
    simp [edgePairsLoop, segmentIndices, edgePairs]
  | succ m ih =>
    intro es P k hn heven hk
    match es with
    | [] => simp [edgePairsLoop, segmentIndices, edgePairs]
    | [e] => simp at heven
    | e1 :: e2 :: rest =>
      have hlen2 : (e1 :: e2 :: rest).length = rest.length + 2 := by simp
      have hrest_even : rest.length % 2 = 0 := by
        rw [hlen2] at heven
        omega
      have hk6 : 6 ≤ k := by
        rw [hlen2] at hk
        omega
      simp only [edgePairsLoop, Option.bind_eq_bind,
        setChecked_pad P k P.length (i * vcount + e1 + vcount) rfl (by omega),
        Option.some_bind,
        setChecked_pad (P ++ [i * vcount + e1 + vcount]) (k - 1) (P.length + 1)
          (i * vcount + e1) (by simp) (by omega),
        setChecked_pad ((P ++ [i * vcount + e1 + vcount]) ++ [i * vcount + e1]) (k - 1 - 1)
          (P.length + 2) (i * vcount + e2) (by simp) (by omega),
        setChecked_pad (((P ++ [i * vcount + e1 + vcount]) ++ [i * vcount + e1]) ++
          [i * vcount + e2]) (k - 1 - 1 - 1) (P.length + 3) (i * vcount + e2)
          (by simp) (by omega),
        setChecked_pad ((((P ++ [i * vcount + e1 + vcount]) ++ [i * vcount + e1]) ++
          [i * vcount + e2]) ++ [i * vcount + e2]) (k - 1 - 1 - 1 - 1) (P.length + 4)
          (i * vcount + e2 + vcount) (by simp) (by omega),
        setChecked_pad (((((P ++ [i * vcount + e1 + vcount]) ++ [i * vcount + e1]) ++
          [i * vcount + e2]) ++ [i * vcount + e2]) ++ [i * vcount + e2 + vcount])
          (k - 1 - 1 - 1 - 1 - 1) (P.length + 5) (i * vcount + e1 + vcount)
          (by simp) (by omega)]
      rw [show k - 1 - 1 - 1 - 1 - 1 - 1 = k - 6 from by omega]
      rw [show P.length + 6 = ((((((P ++ [i * vcount + e1 + vcount]) ++ [i * vcount + e1]) ++
        [i * vcount + e2]) ++ [i * vcount + e2]) ++ [i * vcount + e2 + vcount]) ++
        [i * vcount + e1 + vcount]).length from by simp]
      rw [ih rest _ (k - 6) (by rw [hlen2] at hn; omega) hrest_even
        (by rw [hlen2] at hk; omega)]
      have hquad : quadIndices vcount i (e1, e2) =
          [i * vcount + e1 + vcount, i * vcount + e1, i * vcount + e2,
            i * vcount + e2, i * vcount + e2 + vcount, i * vcount + e1 + vcount] := by
        simp [quadIndices, add_one_mul]
        omega
      simp only [Option.some.injEq, Prod.mk.injEq]
      refine ⟨?_, ?_⟩
      · rw [show segmentIndices (e1 :: e2 :: rest) vcount i =
            quadIndices vcount i (e1, e2) ++ segmentIndices rest vcount i from by
          simp [segmentIndices, edgePairs]]
        rw [hquad]
        rw [show k - 3 * (e1 :: e2 :: rest).length = k - 6 - 3 * rest.length from by
          rw [hlen2]; omega]
        simp [List.append_assoc]
      · rw [hlen2]
        simp
        omega

theorem edgePairsLoop_spec (vcount i : ℕ) (es P : List ℕ) (k : ℕ)
    (heven : es.length % 2 = 0) (hk : 3 * es.length ≤ k) :
    edgePairsLoop vcount (i * vcount) es (P ++ List.replicate k 0, P.length) =
      some ((P ++ segmentIndices es vcount i) ++ List.replicate (k - 3 * es.length) 0,
        P.length + 3 * es.length) :=
  edgePairsLoopAux vcount i es.length es P k le_rfl heven hk

theorem segmentsLoop_spec (edges : List ℕ) (vcount : ℕ) (heven : edges.length % 2 = 0) :
    ∀ (n i : ℕ) (P : List ℕ) (k : ℕ), n * (3 * edges.length) ≤ k →
      segmentsLoop edges vcount n i (P ++ List.replicate k 0, P.length) =
        some ((P ++ (List.range' i n).flatMap (segmentIndices edges vcount)) ++
          List.replicate (k - n * (3 * edges.length)) 0,
          P.length + n * (3 * edges.length)) := by
  intro n
  induction n with
  | zero =>
    intro i P k hk
    simp [segmentsLoop]
  | succ m ih =>
    intro i P k hk
    have hmul : (m + 1) * (3 * edges.length) = 3 * edges.length + m * (3 * edges.length) := by
      ring
    rw [hmul] at hk
    simp only [segmentsLoop, Option.bind_eq_bind]
    rw [edgePairsLoop_spec vcount i edges P k heven (by omega)]
    simp only [Option.some_bind]
    rw [show P.length + 3 * edges.length = (P ++ segmentIndices edges vcount i).length from by
      simp [length_segmentIndices edges vcount i heven]]
    rw [ih (i + 1) (P ++ segmentIndices edges vcount i) (k - 3 * edges.length) (by omega)]
    simp only [Option.some.injEq, Prod.mk.injEq]
    refine ⟨?_, ?_⟩
    · rw [List.range'_succ, List.flatMap_cons]
      rw [show k - (m + 1) * (3 * edges.length) = k - 3 * edges.length - m * (3 * edges.length)
        from by rw [hmul]; omega]
      simp [List.append_assoc]
    · rw [hmul]
      simp [length_segmentIndices edges vcount i heven]
      omega

/-- Main helper: under the cross-section invariants and a nonempty path,
extrude succeeds; the vertex and normal buffers have V * L entries, and the
index buffer is the reversal of the emitted stitching sequence followed by
the zero-filled cap slots. -/
theorem extrude_spec (shape : ExtrudeShape) (path : List OrientedPoint)
    (hpath : path ≠ [])
    (hnorm : shape.vertices.length ≤ shape.normals.length)
    (huv : shape.u_coords = [] ∨ shape.vertices.length ≤ shape.u_coords.length)
    (heven : shape.edges.length % 2 = 0) :
    ∃ mesh, extrude shape path = some mesh ∧
      mesh.positions.length = shape.vertices.length * path.length ∧
      mesh.normals.length = shape.vertices.length * path.length ∧
      mesh.indices = (stitchIndices shape.edges shape.vertices.length (path.length - 1) ++
        List.replicate (2 * shape.face_indices.length * 3) 0).reverse := by
  have hlen0 : ¬ path.length = 0 := fun h => hpath (List.length_eq_zero.mp h)
  obtain ⟨st, hrings, hl1, hl2, hl3⟩ := ringsLoop_spec shape hnorm huv path 0
    (List.replicate (shape.vertices.length * path.length) Vec3.zero,
      List.replicate (shape.vertices.length * path.length) Vec3.zero,
      List.replicate (shape.vertices.length * path.length) ((0 : ℝ), (0 : ℝ)))
    (by simp [Nat.mul_comm]) (by simp [Nat.mul_comm]) (by simp [Nat.mul_comm])
  have hkeq : (shape.edges.length * (path.length - 1) + 2 * shape.face_indices.length) * 3 =
      (path.length - 1) * (3 * shape.edges.length) + 2 * shape.face_indices.length * 3 := by
    ring
  have hseg := segmentsLoop_spec shape.edges shape.vertices.length heven (path.length - 1) 0
    ([] : List ℕ)
    ((shape.edges.length * (path.length - 1) + 2 * shape.face_indices.length) * 3)
    (by omega)
  simp only [List.nil_append, List.length_nil, Nat.zero_add] at hseg
  simp only [extrude, if_neg hlen0, Option.bind_eq_bind, hrings, Option.some_bind, hseg]
  refine ⟨_, rfl, ?_, ?_, ?_⟩
  · rw [hl1]
    simp
  · rw [hl2]
    simp
  · show ((List.range' 0 (path.length - 1)).flatMap
        (segmentIndices shape.edges shape.vertices.length) ++
        List.replicate ((shape.edges.length * (path.length - 1) +
          2 * shape.face_indices.length) * 3 -
          (path.length - 1) * (3 * shape.edges.length)) 0).reverse =
      (stitchIndices shape.edges shape.vertices.length (path.length - 1) ++
        List.replicate (2 * shape.face_indices.length * 3) 0).reverse
    rw [stitchIndices, List.range_eq_range']
    rw [show (shape.edges.length * (path.length - 1) + 2 * shape.face_indices.length) * 3 -
        (path.length - 1) * (3 * shape.edges.length) =
        2 * shape.face_indices.length * 3 from by omega]

theorem length_stitchIndices (edges : List ℕ) (vcount S : ℕ) (heven : edges.length % 2 = 0) :
    (stitchIndices edges vcount S).length = S * (3 * edges.length) := by
  rw [stitchIndices, List.length_flatMap]
  rw [show List.map (List.length ∘ segmentIndices edges vcount) (List.range S) =
      List.map (fun _ => 3 * edges.length) (List.range S) from
    List.map_congr_left fun i _ => length_segmentIndices edges vcount i heven]
  rw [List.map_const', List.sum_replicate, smul_eq_mul, List.length_range]

/-- C1: for every segment i and every outline edge pair (α, β) taken in order
from the flattened edge list, the six indices a, b, c, c, d, a with
a = (i+1)V+α, b = iV+α, c = iV+β, d = (i+1)V+β are written consecutively into
the index buffer (stitchIndices), and the returned index buffer is exactly the
end-to-end reversal of the emitted sequence including the zero-filled cap
slots. -/
theorem extrude_stitch_and_reverse (shape : ExtrudeShape) (path : List OrientedPoint)
    (hpath : path ≠ [])
    (hnorm : shape.vertices.length ≤ shape.normals.length)
    (huv : shape.u_coords = [] ∨ shape.vertices.length ≤ shape.u_coords.length)
    (heven : shape.edges.length % 2 = 0) :
    ∃ mesh, extrude shape path = some mesh ∧
      mesh.indices = (stitchIndices shape.edges shape.vertices.length (path.length - 1) ++
        List.replicate (2 * shape.face_indices.length * 3) 0).reverse := by
  obtain ⟨mesh, hm, _, _, hidx⟩ := extrude_spec shape path hpath hnorm huv heven
  exact ⟨mesh, hm, hidx⟩

/-- Witness for C1 on the concrete square cross-section and a two-point path. -/
theorem extrude_stitch_and_reverse_witness :
    [exPoint, exPoint2] ≠ ([] : List OrientedPoint) ∧
    exShape.vertices.length ≤ exShape.normals.length ∧
    (exShape.u_coords = [] ∨ exShape.vertices.length ≤ exShape.u_coords.length) ∧
    exShape.edges.length % 2 = 0 ∧
    (∃ mesh, extrude exShape [exPoint, exPoint2] = some mesh ∧
      mesh.indices = (stitchIndices exShape.edges exShape.vertices.length
        ([exPoint, exPoint2].length - 1) ++
        List.replicate (2 * exShape.face_indices.length * 3) 0).reverse) :=
  ⟨by simp, by decide, Or.inl rfl, by decide,
    extrude_stitch_and_reverse exShape [exPoint, exPoint2] (by simp) (by decide)
      (Or.inl rfl) (by decide)⟩

/-- C4: for a cross-section with V vertices, E outline edges (2E flattened
entries) and F flattened face indices, and a path of L points, extrude
returns exactly V*L vertex positions and V*L normals, and an index buffer of
exactly E*S*6 + 2*F*3 entries (S = L-1) in which the slots beyond the E*S*6
populated stitching entries remain zero-filled (after the final end-to-end
reversal those cap slots sit at the front of the buffer, so they are its
first 2*F*3 entries). -/
theorem extrude_output_sizes (shape : ExtrudeShape) (path : List OrientedPoint) (E : ℕ)
    (hpath : path ≠ [])
    (hnorm : shape.vertices.length ≤ shape.normals.length)
    (huv : shape.u_coords = [] ∨ shape.vertices.length ≤ shape.u_coords.length)
    (hE : shape.edges.length = 2 * E) :
    ∃ mesh, extrude shape path = some mesh ∧
      mesh.positions.length = shape.vertices.length * path.length ∧
      mesh.normals.length = shape.vertices.length * path.length ∧
      mesh.indices.length = E * (path.length - 1) * 6 + 2 * shape.face_indices.length * 3 ∧
      mesh.indices.take (2 * shape.face_indices.length * 3) =
        List.replicate (2 * shape.face_indices.length * 3) 0 := by
  have heven : shape.edges.length % 2 = 0 := by omega
  obtain ⟨mesh, hm, hp, hn, hidx⟩ := extrude_spec shape path hpath hnorm huv heven
  refine ⟨mesh, hm, hp, hn, ?_, ?_⟩
  · rw [hidx]
    simp only [List.length_reverse, List.length_append,
      length_stitchIndices _ _ _ heven, List.length_replicate, hE]
    ring
  · rw [hidx, List.reverse_append, List.reverse_replicate]
    exact List.take_left' (by simp)

/-- Witness for C4 on the concrete square cross-section (E = 4) and a
two-point path. -/
theorem extrude_output_sizes_witness :
    [exPoint, exPoint2] ≠ ([] : List OrientedPoint) ∧
    exShape.vertices.length ≤ exShape.normals.length ∧
    (exShape.u_coords = [] ∨ exShape.vertices.length ≤ exShape.u_coords.length) ∧
    exShape.edges.length = 2 * 4 ∧
    (∃ mesh, extrude exShape [exPoint, exPoint2] = some mesh ∧
      mesh.positions.length = exShape.vertices.length * [exPoint, exPoint2].length ∧
      mesh.normals.length = exShape.vertices.length * [exPoint, exPoint2].length ∧
      mesh.indices.length = 4 * ([exPoint, exPoint2].length - 1) * 6 +
        2 * exShape.face_indices.length * 3 ∧
      mesh.indices.take (2 * exShape.face_indices.length * 3) =
        List.replicate (2 * exShape.face_indices.length * 3) 0) :=
  ⟨by simp, by decide, Or.inl rfl, by decide,
    extrude_output_sizes exShape [exPoint, exPoint2] 4 (by simp) (by decide)
      (Or.inl rfl) (by decide)⟩

/-- C6 (amended): extrude fails (the usize subtraction path.len() - 1
underflows, the host language's native failure) exactly on an empty path;
with one or more path points, under the cross-section invariants, extrude
does not fail. -/
theorem extrude_path_failure_boundary (shape : ExtrudeShape) (path : List OrientedPoint)
    (hnorm : shape.vertices.length ≤ shape.normals.length)
    (huv : shape.u_coords = [] ∨ shape.vertices.length ≤ shape.u_coords.length)
    (heven : shape.edges.length % 2 = 0) :
    (path = [] → extrude shape path = none) ∧
    (path ≠ [] → (extrude shape path).isSome = true) := by
  constructor
  · intro h
    subst h
    simp [extrude]
  · intro h
    obtain ⟨mesh, hm, _⟩ := extrude_spec shape path h hnorm huv heven
    simp [hm]

/-- Witness for the amended C6 at the concrete square cross-section and a
one-point path. -/
theorem extrude_path_failure_boundary_witness :
    exShape.vertices.length ≤ exShape.normals.length ∧
    (exShape.u_coords = [] ∨ exShape.vertices.length ≤ exShape.u_coords.length) ∧
    exShape.edges.length % 2 = 0 ∧
    (([exPoint] = ([] : List OrientedPoint) → extrude exShape [exPoint] = none) ∧
      ([exPoint] ≠ ([] : List OrientedPoint) → (extrude exShape [exPoint]).isSome = true)) :=
  ⟨by decide, Or.inl rfl, by decide,
    extrude_path_failure_boundary exShape [exPoint] (by decide) (Or.inl rfl) (by decide)⟩

/-- Counterexample to C6 as stated: a path with fewer than two oriented
points (a single point) on which extrude succeeds instead of raising the
MissingPath failure. -/
theorem extrude_one_point_no_failure : (extrude exShape [exPoint]).isSome = true := by
  obtain ⟨mesh, hm, _⟩ := extrude_spec exShape [exPoint] (by simp) (by decide)
    (Or.inl rfl) (by decide)
  simp [hm]
